import Mathlib

/-!
# Verification of the Figma-Context-MCP tree-simplification engine and server glue

This file gives a shallow embedding of the repository's data model and
operations:

* the tree simplification / style-deduplication engine (`CanonicalStyle`,
  `GlobalVarTable.intern`, `convertNode`, `SimplifiedDesign`); the engine
  module itself is not part of the provided sources, so its definitions are
  modelled from the specification (each such definition is marked
  `Modelled from the spec:` in its doc comment);
* the `FigmaService` request/endpoint logic (`request`, `getFileEndpoint`,
  `getNodeEndpoint`, `FigmaService.getNode`) from `services/figma.ts`;
* the input validation (`isValidFileKey`, `isValidNodeId`,
  `validateGetFigmaDataInput`) from `utils/validation.ts`;
* the error-response shape (`createErrorResponse`) from `utils/error-handler.ts`;
* the `get_figma_data` tool handler's piecewise JSON serialization from
  `server.ts`.

Theorems named `claim_C*` settle the numbered specification claims.
-/

/-! ## Decimal rendering of naturals

The engine's style identifiers have the form `"<category>_<N>"`.  We render
`N` in decimal with a fuel-bounded digit function (structural, hence
kernel-reducible) and prove the rendering injective, which is what key
distinctness of the global-variable table rests on. -/

/-- Little-endian base-10 digits; the fuel argument makes the recursion
structural.  `natDigitsAux fuel n` is the digit list of `n` whenever
`n ≤ fuel`. -/
def natDigitsAux : Nat → Nat → List Nat
  | 0, _ => []
  | fuel + 1, n => if n = 0 then [] else n % 10 :: natDigitsAux fuel (n / 10)

/-- Little-endian base-10 digits of `n` (empty for `0`). -/
def natDigits (n : Nat) : List Nat := natDigitsAux n n

/-- Value of a little-endian digit list. -/
def digitsVal : List Nat → Nat
  | [] => 0
  | d :: ds => d + 10 * digitsVal ds

theorem digitsVal_natDigitsAux : ∀ fuel n, n ≤ fuel → digitsVal (natDigitsAux fuel n) = n := by
  intro fuel
  induction fuel with
  | zero => intro n h; interval_cases n; simp [natDigitsAux, digitsVal]
  | succ f ih =>
    intro n h
    by_cases hn : n = 0
    · simp [natDigitsAux, hn, digitsVal]
    · have hdiv : n / 10 ≤ f := by
        have : n / 10 < n := Nat.div_lt_self (Nat.pos_of_ne_zero hn) (by norm_num)
        omega
      simp only [natDigitsAux, hn, if_false, digitsVal, ih _ hdiv]
      omega

theorem digitsVal_natDigits (n : Nat) : digitsVal (natDigits n) = n :=
  digitsVal_natDigitsAux n n (Nat.le_refl n)

theorem natDigitsAux_lt : ∀ fuel n d, d ∈ natDigitsAux fuel n → d < 10 := by
  intro fuel
  induction fuel with
  | zero => intro n d h; simp [natDigitsAux] at h
  | succ f ih =>
    intro n d h
    by_cases hn : n = 0
    · simp [natDigitsAux, hn] at h
    · simp only [natDigitsAux, hn, if_false, List.mem_cons] at h
      rcases h with h | h
      · subst h; exact Nat.mod_lt _ (by norm_num)
      · exact ih _ _ h

theorem natDigits_lt (n : Nat) (d : Nat) (h : d ∈ natDigits n) : d < 10 :=
  natDigitsAux_lt n n d h

theorem digitChar_inj_lt : ∀ a < 10, ∀ b < 10, Nat.digitChar a = Nat.digitChar b → a = b := by
  decide

theorem map_digitChar_inj : ∀ l1 l2 : List Nat, (∀ d ∈ l1, d < 10) → (∀ d ∈ l2, d < 10) →
    l1.map Nat.digitChar = l2.map Nat.digitChar → l1 = l2 := by
  intro l1
  induction l1 with
  | nil => intro l2 _ _ h; cases l2 <;> simp_all
  | cons a as ih =>
    intro l2 h1 h2 h
    cases l2 with
    | nil => simp at h
    | cons b bs =>
      simp only [List.map_cons, List.cons.injEq] at h
      have ha : a = b := digitChar_inj_lt a (h1 a (by simp)) b (h2 b (by simp)) h.1
      have : as = bs := ih bs (fun d hd => h1 d (by simp [hd])) (fun d hd => h2 d (by simp [hd])) h.2
      simp [ha, this]

/-- Decimal rendering of a natural number. -/
def natRepr (n : Nat) : String :=
  if n = 0 then "0" else ⟨((natDigits n).map Nat.digitChar).reverse⟩

theorem natRepr_injective : ∀ m n : Nat, natRepr m = natRepr n → m = n := by
  have key : ∀ n : Nat, n ≠ 0 → (((natDigits n).map Nat.digitChar).reverse = ['0'] → False) := by
    intro n hn h
    have h2 : (natDigits n).map Nat.digitChar = ['0'] := by
      have := congrArg List.reverse h
      simpa using this
    have h3 : natDigits n = [0] := by
      apply map_digitChar_inj _ [0] (fun d hd => natDigits_lt n d hd) (by simp)
      simpa using h2
    have := digitsVal_natDigits n
    rw [h3] at this
    simp [digitsVal] at this
    omega
  intro m n h
  by_cases hm : m = 0 <;> by_cases hn : n = 0
  · omega
  · exfalso
    rw [natRepr, natRepr, if_pos hm, if_neg hn] at h
    have hd : ("0" : String).data = (String.mk (((natDigits n).map Nat.digitChar).reverse)).data := by
      rw [h]
    exact key n hn (by simpa using hd.symm)
  · exfalso
    rw [natRepr, natRepr, if_pos hn, if_neg hm] at h
    have hd : (String.mk (((natDigits m).map Nat.digitChar).reverse)).data = ("0" : String).data := by
      rw [h]
    exact key m hm (by simpa using hd)
  · rw [natRepr, natRepr, if_neg hm, if_neg hn] at h
    have hd : ((natDigits m).map Nat.digitChar).reverse = ((natDigits n).map Nat.digitChar).reverse := by
      have := congrArg String.data h
      simpa using this
    have hmap : (natDigits m).map Nat.digitChar = (natDigits n).map Nat.digitChar := by
      have := congrArg List.reverse hd
      simpa using this
    have hdig : natDigits m = natDigits n :=
      map_digitChar_inj _ _ (fun d hd => natDigits_lt m d hd) (fun d hd => natDigits_lt n d hd) hmap
    have hm' := digitsVal_natDigits m
    have hn' := digitsVal_natDigits n
    rw [hdig] at hm'
    omega

/-! ## Canonical styles

Modelled from the spec: the Style Extractor's canonical, value-comparable
style objects, one constructor per category (fill, stroke, effect,
typography, layout).  Colors carry one channel each for red/green/blue/alpha;
gradients are compared as an ordered stop sequence; effects keep type,
radius, spread, color and offset; typography keeps family, weight, size,
line height, letter spacing, case and decoration; auto-layout keeps
direction, item spacing, per-side padding and alignment. -/

structure Color where
  r : Rat
  g : Rat
  b : Rat
  a : Rat
deriving DecidableEq, Repr

structure GradientStop where
  position : Rat
  color : Color
deriving DecidableEq, Repr

inductive Paint where
  | solid (color : Color)
  | gradient (stops : List GradientStop)
deriving DecidableEq, Repr

structure VisualEffect where
  effectType : String
  radius : Rat
  spread : Option Rat
  color : Option Color
  offsetX : Rat
  offsetY : Rat
deriving DecidableEq, Repr

structure Typography where
  fontFamily : String
  fontWeight : Rat
  fontSize : Rat
  lineHeight : Option Rat
  letterSpacing : Option Rat
  textCase : Option String
  textDecoration : Option String
deriving DecidableEq, Repr

structure AutoLayout where
  direction : String
  itemSpacing : Rat
  paddingTop : Rat
  paddingRight : Rat
  paddingBottom : Rat
  paddingLeft : Rat
  alignment : Option String
deriving DecidableEq, Repr

/-- Modelled from the spec: a normalized, value-equality style object for one
category. -/
inductive CanonicalStyle where
  | fill (paints : List Paint)
  | stroke (paints : List Paint)
  | effect (effects : List VisualEffect)
  | typography (t : Typography)
  | layout (l : AutoLayout)
deriving DecidableEq, Repr

/-- The style category a canonical style belongs to. -/
def CanonicalStyle.category : CanonicalStyle → String
  | .fill _ => "fill"
  | .stroke _ => "stroke"
  | .effect _ => "effect"
  | .typography _ => "text"
  | .layout _ => "layout"

/-! ## The global variable table

Modelled from the spec: `intern(category, style)` returns an existing id if a
deep-equal canonical style was already interned in this run, and otherwise
allocates the next per-category id `"<category>_<N>"` (counter starting at
0), stores the mapping and returns the new id.  The table is kept in
allocation order. -/

abbrev GlobalVarTable := List (String × CanonicalStyle)

/-- The style id allocated for the `n`-th distinct style of category `c`. -/
def styleIdFor (c : String) (n : Nat) : String := c ++ "_" ++ natRepr n

/-- All keys of the table. -/
def tableKeys (t : GlobalVarTable) : List String := t.map (·.1)

/-- Key-based lookup (first match). -/
def lookupVar (t : GlobalVarTable) (i : String) : Option CanonicalStyle :=
  (t.find? (fun e => decide (e.1 = i))).map (·.2)

/-- Value-based lookup: the id of an already-interned deep-equal style. -/
def findStyle (t : GlobalVarTable) (s : CanonicalStyle) : Option String :=
  (t.find? (fun e => decide (e.2 = s))).map (·.1)

/-- Number of styles of category `c` interned so far (the per-category counter). -/
def categoryCount (t : GlobalVarTable) (c : String) : Nat :=
  (t.filter (fun e => decide (e.2.category = c))).length

/-- Modelled from the spec: intern a canonical style, returning its (existing
or fresh) id together with the updated table. -/
def intern (t : GlobalVarTable) (s : CanonicalStyle) : String × GlobalVarTable :=
  match findStyle t s with
  | some i => (i, t)
  | none => (styleIdFor s.category (categoryCount t s.category),
             t ++ [(styleIdFor s.category (categoryCount t s.category), s)])

/-- Table well-formedness: ids of each category are exactly
`"<category>_0" … "<category>_(k-1)"` in allocation order, and no canonical
style value is stored twice. -/
def WFTable (t : GlobalVarTable) : Prop :=
  (∀ c : String, (t.filter (fun e => decide (e.2.category = c))).map (·.1)
      = (List.range (categoryCount t c)).map (styleIdFor c))
  ∧ (t.map (·.2)).Nodup

theorem wfTable_nil : WFTable [] := by
  constructor
  · intro c; simp [categoryCount]
  · simp

theorem styleIdFor_index_inj (c : String) (i j : Nat) (h : styleIdFor c i = styleIdFor c j) :
    i = j := by
  apply natRepr_injective
  have hd := congrArg String.data h
  simp only [styleIdFor, String.data_append] at hd
  exact String.ext (List.append_cancel_left hd)

theorem styleIdFor_cat_inj (s1 s2 : CanonicalStyle) (i j : Nat)
    (h : styleIdFor s1.category i = styleIdFor s2.category j) :
    s1.category = s2.category := by
  have hd := congrArg String.data h
  simp only [styleIdFor, String.data_append] at hd
  cases s1 <;> cases s2 <;> simp_all [CanonicalStyle.category]

theorem wf_entry_format {t : GlobalVarTable} (h : WFTable t) {e : String × CanonicalStyle}
    (he : e ∈ t) : ∃ j, j < categoryCount t e.2.category ∧ e.1 = styleIdFor e.2.category j := by
  have hef : e ∈ t.filter (fun x => decide (x.2.category = e.2.category)) :=
    List.mem_filter.mpr ⟨he, by simp⟩
  have h1 : e.1 ∈ (t.filter (fun x => decide (x.2.category = e.2.category))).map (·.1) :=
    List.mem_map.mpr ⟨e, hef, rfl⟩
  rw [h.1 e.2.category] at h1
  obtain ⟨j, hj, hje⟩ := List.mem_map.mp h1
  exact ⟨j, List.mem_range.mp hj, hje.symm⟩

theorem wf_entries_key_inj {t : GlobalVarTable} (h : WFTable t) {e1 e2 : String × CanonicalStyle}
    (h1 : e1 ∈ t) (h2 : e2 ∈ t) (hk : e1.1 = e2.1) : e1 = e2 := by
  obtain ⟨j1, hj1, hf1⟩ := wf_entry_format h h1
  obtain ⟨j2, hj2, hf2⟩ := wf_entry_format h h2
  have hid : styleIdFor e1.2.category j1 = styleIdFor e2.2.category j2 := by
    rw [← hf1, ← hf2]; exact hk
  have hcat : e1.2.category = e2.2.category := styleIdFor_cat_inj e1.2 e2.2 j1 j2 hid
  have hnd : ((t.filter (fun x => decide (x.2.category = e1.2.category))).map (·.1)).Nodup := by
    rw [h.1 e1.2.category]
    exact List.Nodup.map (fun a b hab => styleIdFor_index_inj _ a b hab) (List.nodup_range _)
  have he1f : e1 ∈ t.filter (fun x => decide (x.2.category = e1.2.category)) :=
    List.mem_filter.mpr ⟨h1, by simp⟩
  have he2f : e2 ∈ t.filter (fun x => decide (x.2.category = e1.2.category)) :=
    List.mem_filter.mpr ⟨h2, by simp [hcat]⟩
  exact List.inj_on_of_nodup_map hnd he1f he2f hk

theorem mem_lookupVar {t : GlobalVarTable} (h : WFTable t) {e : String × CanonicalStyle}
    (he : e ∈ t) : lookupVar t e.1 = some e.2 := by
  unfold lookupVar
  cases hfind : t.find? (fun x => decide (x.1 = e.1)) with
  | none =>
    exfalso
    rw [List.find?_eq_none] at hfind
    exact hfind e he (by simp)
  | some e' =>
    have he' : e' ∈ t := List.mem_of_find?_eq_some hfind
    have hk : e'.1 = e.1 := by have := List.find?_some hfind; simpa using this
    have : e' = e := wf_entries_key_inj h he' he hk
    simp [this]

theorem lookupVar_mem {t : GlobalVarTable} {i : String} {v : CanonicalStyle}
    (h : lookupVar t i = some v) : (i, v) ∈ t := by
  unfold lookupVar at h
  cases hfind : t.find? (fun x => decide (x.1 = i)) with
  | none => rw [hfind] at h; simp at h
  | some e =>
    rw [hfind] at h
    simp at h
    have he : e ∈ t := List.mem_of_find?_eq_some hfind
    have hk : e.1 = i := by have := List.find?_some hfind; simpa using this
    have : (i, v) = e := by
      cases e
      simp_all
    rw [this]
    exact he

theorem lookupVar_key_mem {t : GlobalVarTable} {i : String} {v : CanonicalStyle}
    (h : lookupVar t i = some v) : i ∈ tableKeys t :=
  List.mem_map.mpr ⟨(i, v), lookupVar_mem h, rfl⟩

theorem lookupVar_val_inj {t : GlobalVarTable} (h : WFTable t) {i1 i2 : String}
    {v : CanonicalStyle} (h1 : lookupVar t i1 = some v) (h2 : lookupVar t i2 = some v) :
    i1 = i2 := by
  have m1 := lookupVar_mem h1
  have m2 := lookupVar_mem h2
  have := List.inj_on_of_nodup_map h.2 m1 m2 rfl
  simpa using this

/-- The table only grows during a run: `t'` is `t` with entries appended. -/
def TableExtends (t t' : GlobalVarTable) : Prop := ∃ u, t' = t ++ u

theorem tableExtends_refl (t : GlobalVarTable) : TableExtends t t := ⟨[], by simp⟩

theorem tableExtends_trans {t1 t2 t3 : GlobalVarTable} (h1 : TableExtends t1 t2)
    (h2 : TableExtends t2 t3) : TableExtends t1 t3 := by
  obtain ⟨u1, hu1⟩ := h1
  obtain ⟨u2, hu2⟩ := h2
  exact ⟨u1 ++ u2, by rw [hu2, hu1, List.append_assoc]⟩

theorem lookupVar_mono {t t' : GlobalVarTable} (hx : TableExtends t t') {i : String}
    {v : CanonicalStyle} (h : lookupVar t i = some v) : lookupVar t' i = some v := by
  obtain ⟨u, hu⟩ := hx
  subst hu
  unfold lookupVar at h ⊢
  cases hfind : t.find? (fun x => decide (x.1 = i)) with
  | none => rw [hfind] at h; simp at h
  | some e =>
    rw [hfind] at h
    rw [List.find?_append, hfind]
    simpa using h

theorem intern_hit {t : GlobalVarTable} {s : CanonicalStyle} {i : String}
    (h : findStyle t s = some i) : intern t s = (i, t) := by
  simp [intern, h]

theorem intern_miss {t : GlobalVarTable} {s : CanonicalStyle} (h : findStyle t s = none) :
    intern t s = (styleIdFor s.category (categoryCount t s.category),
      t ++ [(styleIdFor s.category (categoryCount t s.category), s)]) := by
  simp [intern, h]

theorem intern_extends (t : GlobalVarTable) (s : CanonicalStyle) :
    TableExtends t (intern t s).2 := by
  cases hf : findStyle t s with
  | some i => rw [intern_hit hf]; exact tableExtends_refl t
  | none => rw [intern_miss hf]; exact ⟨_, rfl⟩

theorem findStyle_none_iff {t : GlobalVarTable} {s : CanonicalStyle} :
    findStyle t s = none ↔ ∀ e ∈ t, e.2 ≠ s := by
  unfold findStyle
  simp [List.find?_eq_none]

theorem fresh_key_not_mem {t : GlobalVarTable} {s : CanonicalStyle} (h : WFTable t) :
    ∀ e ∈ t, e.1 ≠ styleIdFor s.category (categoryCount t s.category) := by
  intro e he heq
  obtain ⟨j, hj, hfmt⟩ := wf_entry_format h he
  rw [hfmt] at heq
  have hcat : e.2.category = s.category := styleIdFor_cat_inj e.2 s j _ heq
  rw [hcat] at heq
  have hidx : j = categoryCount t s.category := styleIdFor_index_inj _ _ _ heq
  rw [hcat] at hj
  omega

theorem intern_lookup {t : GlobalVarTable} {s : CanonicalStyle} (h : WFTable t) :
    lookupVar (intern t s).2 (intern t s).1 = some s := by
  cases hf : findStyle t s with
  | some i =>
    rw [intern_hit hf]
    unfold findStyle at hf
    cases hfind : t.find? (fun e => decide (e.2 = s)) with
    | none => rw [hfind] at hf; simp at hf
    | some e =>
      rw [hfind] at hf
      simp at hf
      have he : e ∈ t := List.mem_of_find?_eq_some hfind
      have hs : e.2 = s := by have := List.find?_some hfind; simpa using this
      have := mem_lookupVar h he
      rw [hs, hf] at this
      exact this
  | none =>
    rw [intern_miss hf]
    unfold lookupVar
    rw [List.find?_append]
    have hnone : t.find? (fun e =>
        decide (e.1 = styleIdFor s.category (categoryCount t s.category))) = none := by
      rw [List.find?_eq_none]
      intro e he
      simpa using fresh_key_not_mem h e he
    rw [hnone]
    simp

theorem intern_wf {t : GlobalVarTable} {s : CanonicalStyle} (h : WFTable t) :
    WFTable (intern t s).2 := by
  cases hf : findStyle t s with
  | some i => rw [intern_hit hf]; exact h
  | none =>
    rw [intern_miss hf]
    constructor
    · intro c
      have hcnt : ∀ c' : String, categoryCount
          (t ++ [(styleIdFor s.category (categoryCount t s.category), s)]) c'
          = categoryCount t c' + (if s.category = c' then 1 else 0) := by
        intro c'
        unfold categoryCount
        rw [List.filter_append]
        by_cases hc : s.category = c' <;> simp [hc]
      rw [List.filter_append, List.map_append]
      by_cases hc : s.category = c
      · subst hc
        have hcnt2 : categoryCount
            (t ++ [(styleIdFor s.category (categoryCount t s.category), s)]) s.category
            = categoryCount t s.category + 1 := by
          rw [hcnt]; simp
        rw [hcnt2, List.range_succ, List.map_append, h.1 s.category]
        simp
      · have hcnt2 : categoryCount
            (t ++ [(styleIdFor s.category (categoryCount t s.category), s)]) c
            = categoryCount t c := by
          rw [hcnt]; simp [hc]
        rw [hcnt2, h.1 c]
        simp [hc]
    · rw [List.map_append]
      simp only [List.map_cons, List.map_nil]
      rw [List.nodup_append]
      refine ⟨h.2, by simp, ?_⟩
      intro v hv hv'
      simp at hv'
      obtain ⟨e, he, hev⟩ := List.mem_map.mp hv
      rw [findStyle_none_iff] at hf
      exact hf e he (by rw [hev, hv'])

theorem intern_count_le (t : GlobalVarTable) (s : CanonicalStyle) (c : String) :
    categoryCount t c ≤ categoryCount (intern t s).2 c := by
  cases hf : findStyle t s with
  | some i => rw [intern_hit hf]
  | none =>
    rw [intern_miss hf]
    unfold categoryCount
    rw [List.filter_append, List.length_append]
    omega

theorem intern_keys_cases {t : GlobalVarTable} {s : CanonicalStyle} :
    ∀ k ∈ tableKeys (intern t s).2, k ∈ tableKeys t ∨ k = (intern t s).1 := by
  cases hf : findStyle t s with
  | some i => rw [intern_hit hf]; intro k hk; exact Or.inl hk
  | none =>
    rw [intern_miss hf]
    intro k hk
    unfold tableKeys at hk
    rw [List.map_append] at hk
    rcases List.mem_append.mp hk with hk | hk
    · exact Or.inl hk
    · simp at hk
      exact Or.inr hk

/-! ## Raw and simplified nodes, and the conversion -/

structure BoundingBox where
  x : Rat
  y : Rat
  width : Rat
  height : Rat
deriving DecidableEq, Repr

/-- Modelled from the spec: one text run (already split at override
boundaries) with its typography. -/
structure RawTextRun where
  text : String
  style : Typography
deriving DecidableEq, Repr

/-- Modelled from the spec: the identifier, type tag, geometry and
style-bearing fields of a raw node; every style-bearing field is optional
(a missing field is `none`). -/
structure RawProps where
  id : String
  nodeType : String
  boundingBox : Option BoundingBox
  fills : Option (List Paint)
  strokes : Option (List Paint)
  effects : Option (List VisualEffect)
  typography : Option Typography
  layout : Option AutoLayout
  textRuns : Option (List RawTextRun)
deriving DecidableEq, Repr

/-- Modelled from the spec: a raw input node; a missing `children` field is
`none`. -/
inductive RawNode where
  | mk (props : RawProps) (children : Option (List RawNode))

def RawNode.props : RawNode → RawProps
  | .mk p _ => p

def RawNode.children : RawNode → Option (List RawNode)
  | .mk _ c => c

/-- A text run of the output, paired with its interned style id. -/
structure SimpTextRun where
  text : String
  styleId : String
deriving DecidableEq, Repr

/-- The non-recursive fields of an output node: identifier, type, geometry,
the style-category-to-StyleId mapping and the text runs. -/
structure SimpProps where
  id : String
  nodeType : String
  boundingBox : Option BoundingBox
  fillId : Option String
  strokeId : Option String
  effectId : Option String
  textStyleId : Option String
  layoutId : Option String
  textRuns : List SimpTextRun
deriving DecidableEq, Repr

/-- Modelled from the spec: an output node with its ordered children. -/
inductive SimplifiedNode where
  | mk (props : SimpProps) (children : List SimplifiedNode)

def SimplifiedNode.props : SimplifiedNode → SimpProps
  | .mk p _ => p

def SimplifiedNode.children : SimplifiedNode → List SimplifiedNode
  | .mk _ c => c

/-- Modelled from the spec: the Style Extractor per category; a missing field
yields no canonical style of that category. -/
def extractFill (p : RawProps) : Option CanonicalStyle := p.fills.map .fill

def extractStroke (p : RawProps) : Option CanonicalStyle := p.strokes.map .stroke

def extractEffect (p : RawProps) : Option CanonicalStyle := p.effects.map .effect

def extractTypography (p : RawProps) : Option CanonicalStyle := p.typography.map .typography

def extractLayout (p : RawProps) : Option CanonicalStyle := p.layout.map .layout

/-- Intern an optional extracted style, threading the table. -/
def internOpt (t : GlobalVarTable) : Option CanonicalStyle → Option String × GlobalVarTable
  | none => (none, t)
  | some s => (some (intern t s).1, (intern t s).2)

/-- Modelled from the spec: intern each text run's typography in order,
pairing each run with its own interned id. -/
def internRuns : List RawTextRun → GlobalVarTable → List SimpTextRun × GlobalVarTable
  | [], t => ([], t)
  | r :: rest, t =>
    let a := intern t (.typography r.style)
    let b := internRuns rest a.2
    (⟨r.text, a.1⟩ :: b.1, b.2)

/-- Modelled from the spec: the Node Assembler for one node's own fields:
extract each category, intern, and record the resulting ids. -/
def assembleProps (p : RawProps) (t : GlobalVarTable) : SimpProps × GlobalVarTable :=
  let f := internOpt t (extractFill p)
  let s := internOpt f.2 (extractStroke p)
  let e := internOpt s.2 (extractEffect p)
  let ty := internOpt e.2 (extractTypography p)
  let la := internOpt ty.2 (extractLayout p)
  let ru := internRuns (p.textRuns.getD []) la.2
  (⟨p.id, p.nodeType, p.boundingBox, f.1, s.1, e.1, ty.1, la.1, ru.1⟩, ru.2)

mutual
/-- Modelled from the spec: pre-order conversion of one raw node; a node with
no `children` field is a leaf. -/
def convertNode : RawNode → GlobalVarTable → SimplifiedNode × GlobalVarTable
  | .mk p cs, t =>
    let a := assembleProps p t
    match cs with
    | none => (.mk a.1 [], a.2)
    | some l =>
      let b := convertNodes l a.2
      (.mk a.1 b.1, b.2)
/-- Modelled from the spec: convert a sequence of raw nodes in order,
threading the table left to right. -/
def convertNodes : List RawNode → GlobalVarTable → List SimplifiedNode × GlobalVarTable
  | [], t => ([], t)
  | n :: ns, t =>
    let a := convertNode n t
    let b := convertNodes ns a.2
    (a.1 :: b.1, b.2)
end

mutual
/-- Pre-order sequence of raw node records. -/
def preorderRaw : RawNode → List RawProps
  | .mk p none => [p]
  | .mk p (some l) => p :: preorderRawList l
def preorderRawList : List RawNode → List RawProps
  | [] => []
  | n :: ns => preorderRaw n ++ preorderRawList ns
end

mutual
/-- Pre-order sequence of output node records. -/
def preorderSimp : SimplifiedNode → List SimpProps
  | .mk p cs => p :: preorderSimpList cs
def preorderSimpList : List SimplifiedNode → List SimpProps
  | [] => []
  | n :: ns => preorderSimp n ++ preorderSimpList ns
end

/-! ## The design envelope and the service boundary -/

structure FileMeta where
  name : String
  lastModified : String
  thumbnailUrl : String
deriving DecidableEq, Repr

/-- Modelled from the spec: the single output value: metadata, ordered root
nodes, and the global variable table taken verbatim. -/
structure SimplifiedDesign where
  name : String
  lastModified : String
  thumbnailUrl : String
  nodes : List SimplifiedNode
  globalVars : GlobalVarTable

/-- Modelled from the spec: the Design Envelope Builder; the table starts
empty for each conversion call. -/
def convertRoots (m : FileMeta) (roots : List RawNode) : SimplifiedDesign :=
  let r := convertNodes roots []
  ⟨m.name, m.lastModified, m.thumbnailUrl, r.1, r.2⟩

/-- A whole-file response: metadata plus the top-level containers under the
document root. -/
structure FilePayload where
  meta : FileMeta
  documentChildren : List RawNode

/-- A node-request response: metadata plus a map from node id to the fetched
subtree (absent or null for unknown ids). -/
structure NodesPayload where
  meta : FileMeta
  nodes : List (String × Option RawNode)

/-- services/figma.ts `FigmaError`: `{ status, err }`. -/
structure FigmaError where
  status : Nat
  err : String
deriving DecidableEq, Repr

/-- An error escaping a `FigmaService` call: either a thrown `FigmaError`
(HTTP error response) or a generic thrown `Error` message. -/
inductive ServiceError where
  | figma (e : FigmaError)
  | generic (msg : String)
deriving DecidableEq, Repr

/-- The outcome of the underlying HTTP GET, as seen by `request`. -/
inductive FetchResult (α : Type) where
  | success (data : α)
  | httpError (status : Nat) (errField : Option String) (statusText : String)
  | networkFailure (msg : String)

/-- JavaScript `a || b` on strings (empty string is falsy). -/
def jsOrStr (a b : String) : String := if a = "" then b else a

/-- services/figma.ts `request`: returns the response data, converts an HTTP
error response into a thrown `FigmaError` (`err || statusText || "Unknown
error"`), and wraps other failures in a generic error. -/
def request {α : Type} (r : FetchResult α) : Except ServiceError α :=
  match r with
  | .success d => .ok d
  | .httpError st ef stx => .error (.figma ⟨st, jsOrStr (ef.getD "") (jsOrStr stx "Unknown error")⟩)
  | .networkFailure msg => .error (.generic ("Failed to make request to Figma API: " ++ msg))

/-- Modelled from the spec: whole-file conversion. -/
def parseFilePayload (p : FilePayload) : SimplifiedDesign :=
  convertRoots p.meta p.documentChildren

def lookupNodeEntry (entries : List (String × Option RawNode)) (id : String) :
    Option (Option RawNode) :=
  (entries.find? (fun e => decide (e.1 = id))).map (·.2)

/-- Modelled from the spec: single-node conversion; a requested identifier
absent from the fetched payload is a NotFound-class (404) failure, never a
success. -/
def parseNodesPayload (requestedId : String) (p : NodesPayload) :
    Except ServiceError SimplifiedDesign :=
  match lookupNodeEntry p.nodes requestedId with
  | some (some doc) => .ok (convertRoots p.meta [doc])
  | _ => .error (.figma ⟨404, "Node not found: " ++ requestedId⟩)

/-! ## Input validation and the tool handler -/

/-- utils/validation.ts `isValidFileKey`: `/^[a-zA-Z0-9_-]+$/`. -/
def fileKeyChar (c : Char) : Bool := c.isAlpha || c.isDigit || c = '_' || c = '-'

def isValidFileKey (s : String) : Bool := !s.data.isEmpty && s.data.all fileKeyChar

/-- utils/validation.ts `isValidNodeId`: `/^\d+:\d+$/`. -/
def isValidNodeId (s : String) : Bool :=
  let pre := s.data.takeWhile Char.isDigit
  let rest := s.data.dropWhile Char.isDigit
  !pre.isEmpty &&
    (match rest with
     | ':' :: post => !post.isEmpty && post.all Char.isDigit
     | _ => false)

/-- Decimal rendering of an integer. -/
def intRepr (i : Int) : String := if i < 0 then "-" ++ natRepr i.natAbs else natRepr i.natAbs

/-- Rendering of a rational number (integers print with no fractional part). -/
def ratRepr (q : Rat) : String :=
  if q.den = 1 then intRepr q.num else intRepr q.num ++ "/" ++ natRepr q.den

structure ValidationResult where
  isValid : Bool
  errorMessage : Option String
deriving DecidableEq, Repr

/-- JavaScript string truthiness: the empty string is falsy. -/
def strTruthy (s : String) : Bool := !(decide (s = ""))

/-- utils/validation.ts `validateGetFigmaDataInput`: rejects a falsy or
malformed file key, a truthy node id that fails the node-id format, and a
present negative depth. -/
def validateGetFigmaDataInput (fileKey : String) (nodeId : Option String) (depth : Option Rat) :
    ValidationResult :=
  if !strTruthy fileKey || !isValidFileKey fileKey then
    ⟨false, some ("Invalid file key format: " ++ fileKey
      ++ ". File keys should be alphanumeric with possible hyphens or underscores.")⟩
  else if (match nodeId with
           | some nid => strTruthy nid && !isValidNodeId nid
           | none => false) then
    ⟨false, some ("Invalid node ID format: " ++ (nodeId.getD "")
      ++ ". Node IDs should be in the format \"number:number\".")⟩
  else if (match depth with
           | some d => decide (d < 0)
           | none => false) then
    ⟨false, some ("Invalid depth: " ++ ratRepr (depth.getD 0)
      ++ ". Depth should be a non-negative number.")⟩
  else ⟨true, none⟩

/-- utils/error-handler.ts response shape: `isError: true` with a single text
content entry (logging omitted). -/
structure ErrorResponse where
  isError : Bool
  content : List (String × String)
deriving DecidableEq, Repr

/-- utils/error-handler.ts `createErrorResponse` (response construction). -/
def createErrorResponse (message : String) : ErrorResponse :=
  ⟨true, [("text", message)]⟩

/-- utils/error-handler.ts `handleValidationError`. -/
def handleValidationError (msg : String) : ErrorResponse := createErrorResponse msg

/-- What the `get_figma_data` handler does next after validation: either an
early error response (no service call) or a call into `FigmaService`. -/
inductive HandlerOutcome where
  | errorResponse (r : ErrorResponse)
  | fetchNode (fileKey : String) (nodeId : String) (depth : Option Rat)
  | fetchFile (fileKey : String) (depth : Option Rat)
deriving DecidableEq, Repr

/-- server.ts `get_figma_data` handler up to the Figma service call:
validate, return the validation error response, otherwise dispatch on a
truthy `nodeId`. -/
def getFigmaDataStep (fileKey : String) (nodeId : Option String) (depth : Option Rat) :
    HandlerOutcome :=
  let v := validateGetFigmaDataInput fileKey nodeId depth
  if !v.isValid then
    .errorResponse (handleValidationError
      (jsOrStr (v.errorMessage.getD "") "Invalid input parameters for get_figma_data"))
  else
    match nodeId with
    | some nid => if strTruthy nid then .fetchNode fileKey nid depth else .fetchFile fileKey depth
    | none => .fetchFile fileKey depth

/-- services/figma.ts `getFile` endpoint construction: the depth query
parameter is appended only when `depth` is truthy (present and nonzero). -/
def getFileEndpoint (fileKey : String) (depth : Option Rat) : String :=
  "/files/" ++ fileKey ++
    (match depth with
     | some d => if d ≠ 0 then "?depth=" ++ ratRepr d else ""
     | none => "")

/-- services/figma.ts `getNode` endpoint construction: the depth query
parameter is appended only when `depth` is truthy (present and nonzero). -/
def getNodeEndpoint (fileKey nodeId : String) (depth : Option Rat) : String :=
  "/files/" ++ fileKey ++ "/nodes?ids=" ++ nodeId ++
    (match depth with
     | some d => if d ≠ 0 then "&depth=" ++ ratRepr d else ""
     | none => "")

/-- services/figma.ts `getNode`, composed with the (spec-modelled) response
parse: validate formats, perform the request, parse; every failure
propagates to the caller. -/
def FigmaService.getNode (fileKey nodeId : String) (_depth : Option Rat)
    (fetch : FetchResult NodesPayload) : Except ServiceError SimplifiedDesign :=
  if !isValidFileKey fileKey then
    .error (.generic ("Invalid file key format: " ++ fileKey))
  else if !isValidNodeId nodeId then
    .error (.generic ("Invalid node ID format: " ++ nodeId))
  else
    match request fetch with
    | .error e => .error e
    | .ok payload => parseNodesPayload nodeId payload

/-- services/figma.ts `getFile`, composed with the (spec-modelled) conversion. -/
def FigmaService.getFile (fileKey : String) (_depth : Option Rat)
    (fetch : FetchResult FilePayload) : Except ServiceError SimplifiedDesign :=
  if !isValidFileKey fileKey then
    .error (.generic ("Invalid file key format: " ++ fileKey))
  else
    match request fetch with
    | .error e => .error e
    | .ok payload => .ok (parseFilePayload payload)

/-! ## Conversion correctness invariants -/

/-- Correspondence of an optional extracted style with an assigned id,
relative to a table: absent style means no id; present style means the id
resolves to exactly that canonical style. -/
def optStyleOK (t : GlobalVarTable) (os : Option CanonicalStyle) (oi : Option String) : Prop :=
  match os with
  | none => oi = none
  | some s => ∃ i, oi = some i ∧ lookupVar t i = some s

/-- A raw record and its assembled output record agree relative to table `t`:
scalar fields are copied and every assigned id resolves to the extracted
canonical style of its category. -/
def propsOK (t : GlobalVarTable) (p : RawProps) (q : SimpProps) : Prop :=
  q.id = p.id ∧ q.nodeType = p.nodeType ∧ q.boundingBox = p.boundingBox ∧
  optStyleOK t (extractFill p) q.fillId ∧
  optStyleOK t (extractStroke p) q.strokeId ∧
  optStyleOK t (extractEffect p) q.effectId ∧
  optStyleOK t (extractTypography p) q.textStyleId ∧
  optStyleOK t (extractLayout p) q.layoutId ∧
  List.Forall₂ (fun (r : RawTextRun) (u : SimpTextRun) =>
      u.text = r.text ∧ lookupVar t u.styleId = some (.typography r.style))
    (p.textRuns.getD []) q.textRuns

theorem optStyleOK_mono {t t' : GlobalVarTable} (hx : TableExtends t t')
    {os : Option CanonicalStyle} {oi : Option String} (h : optStyleOK t os oi) :
    optStyleOK t' os oi := by
  cases os with
  | none => exact h
  | some s =>
    obtain ⟨i, hi, hl⟩ := h
    exact ⟨i, hi, lookupVar_mono hx hl⟩

theorem propsOK_mono {t t' : GlobalVarTable} (hx : TableExtends t t') {p : RawProps}
    {q : SimpProps} (h : propsOK t p q) : propsOK t' p q := by
  obtain ⟨h1, h2, h3, h4, h5, h6, h7, h8, h9⟩ := h
  refine ⟨h1, h2, h3, optStyleOK_mono hx h4, optStyleOK_mono hx h5, optStyleOK_mono hx h6,
    optStyleOK_mono hx h7, optStyleOK_mono hx h8, ?_⟩
  exact h9.imp (fun _ _ hr => ⟨hr.1, lookupVar_mono hx hr.2⟩)

theorem internOpt_ok {t : GlobalVarTable} (h : WFTable t) (os : Option CanonicalStyle) :
    WFTable (internOpt t os).2 ∧ TableExtends t (internOpt t os).2 ∧
      optStyleOK (internOpt t os).2 os (internOpt t os).1 := by
  cases os with
  | none => exact ⟨h, tableExtends_refl t, rfl⟩
  | some s =>
    refine ⟨intern_wf h, intern_extends t s, ?_⟩
    exact ⟨(intern t s).1, rfl, intern_lookup h⟩

theorem internRuns_ok {t : GlobalVarTable} (h : WFTable t) (rs : List RawTextRun) :
    WFTable (internRuns rs t).2 ∧ TableExtends t (internRuns rs t).2 ∧
      List.Forall₂ (fun (r : RawTextRun) (u : SimpTextRun) =>
          u.text = r.text ∧ lookupVar (internRuns rs t).2 u.styleId = some (.typography r.style))
        rs (internRuns rs t).1 := by
  induction rs generalizing t with
  | nil => exact ⟨h, tableExtends_refl t, List.Forall₂.nil⟩
  | cons r rest ih =>
    have hwf1 : WFTable (intern t (.typography r.style)).2 := intern_wf h
    obtain ⟨hwf2, hx2, hfa⟩ := ih hwf1
    have hx1 : TableExtends t (intern t (.typography r.style)).2 :=
      intern_extends t (.typography r.style)
    have hlook : lookupVar (internRuns rest (intern t (.typography r.style)).2).2
        (intern t (.typography r.style)).1 = some (.typography r.style) :=
      lookupVar_mono hx2 (intern_lookup h)
    refine ⟨hwf2, tableExtends_trans hx1 hx2, ?_⟩
    exact List.Forall₂.cons ⟨rfl, hlook⟩ hfa

theorem assembleProps_ok (p : RawProps) (t : GlobalVarTable) (h : WFTable t) :
    WFTable (assembleProps p t).2 ∧ TableExtends t (assembleProps p t).2 ∧
      propsOK (assembleProps p t).2 p (assembleProps p t).1 := by
  unfold assembleProps
  obtain ⟨w1, x1, o1⟩ := internOpt_ok h (extractFill p)
  obtain ⟨w2, x2, o2⟩ := internOpt_ok w1 (extractStroke p)
  obtain ⟨w3, x3, o3⟩ := internOpt_ok w2 (extractEffect p)
  obtain ⟨w4, x4, o4⟩ := internOpt_ok w3 (extractTypography p)
  obtain ⟨w5, x5, o5⟩ := internOpt_ok w4 (extractLayout p)
  obtain ⟨w6, x6, o6⟩ := internRuns_ok w5 (p.textRuns.getD [])
  refine ⟨w6, tableExtends_trans x1 (tableExtends_trans x2 (tableExtends_trans x3
    (tableExtends_trans x4 (tableExtends_trans x5 x6)))), ?_⟩
  refine ⟨rfl, rfl, rfl, ?_, ?_, ?_, ?_, ?_, ?_⟩
  · exact optStyleOK_mono (tableExtends_trans x2 (tableExtends_trans x3
      (tableExtends_trans x4 (tableExtends_trans x5 x6)))) o1
  · exact optStyleOK_mono (tableExtends_trans x3
      (tableExtends_trans x4 (tableExtends_trans x5 x6))) o2
  · exact optStyleOK_mono (tableExtends_trans x4 (tableExtends_trans x5 x6)) o3
  · exact optStyleOK_mono (tableExtends_trans x5 x6) o4
  · exact optStyleOK_mono x6 o5
  · exact o6

theorem forall₂_mem_right {α β : Type} {R : α → β → Prop} :
    ∀ {as : List α} {bs : List β}, List.Forall₂ R as bs → ∀ {b}, b ∈ bs → ∃ a ∈ as, R a b := by
  intro as bs h
  induction h with
  | nil => intro b hb; simp at hb
  | cons hr _ ih =>
    intro b hb
    rcases List.mem_cons.mp hb with hb | hb
    · exact ⟨_, by simp, hb ▸ hr⟩
    · obtain ⟨a, ha, hab⟩ := ih hb
      exact ⟨a, by simp [ha], hab⟩

theorem forall₂_map_eq {α β γ : Type} {R : α → β → Prop} (f : α → γ) (g : β → γ) :
    ∀ {as : List α} {bs : List β}, List.Forall₂ R as bs → (∀ a b, R a b → g b = f a) →
      bs.map g = as.map f := by
  intro as bs h
  induction h with
  | nil => intro _; rfl
  | cons hr _ ih =>
    intro hfg
    simp only [List.map_cons]
    rw [hfg _ _ hr, ih hfg]

mutual
theorem convertNode_ok : ∀ (n : RawNode) (t : GlobalVarTable), WFTable t →
    WFTable (convertNode n t).2 ∧ TableExtends t (convertNode n t).2 ∧
      List.Forall₂ (propsOK (convertNode n t).2) (preorderRaw n)
        (preorderSimp (convertNode n t).1)
  | .mk p none, t, h => by
    have heq : convertNode (.mk p none) t
        = (.mk (assembleProps p t).1 [], (assembleProps p t).2) := by
      simp [convertNode]
    obtain ⟨w1, x1, o1⟩ := assembleProps_ok p t h
    rw [heq]
    exact ⟨w1, x1, by
      simp only [preorderRaw, preorderSimp, preorderSimpList]
      exact List.Forall₂.cons o1 List.Forall₂.nil⟩
  | .mk p (some l), t, h => by
    have heq : convertNode (.mk p (some l)) t
        = (.mk (assembleProps p t).1 (convertNodes l (assembleProps p t).2).1,
           (convertNodes l (assembleProps p t).2).2) := by
      simp [convertNode]
    obtain ⟨w1, x1, o1⟩ := assembleProps_ok p t h
    obtain ⟨w2, x2, f2⟩ := convertNodes_ok l (assembleProps p t).2 w1
    rw [heq]
    refine ⟨w2, tableExtends_trans x1 x2, ?_⟩
    simp only [preorderRaw, preorderSimp]
    exact List.Forall₂.cons (propsOK_mono x2 o1) f2
theorem convertNodes_ok : ∀ (ns : List RawNode) (t : GlobalVarTable), WFTable t →
    WFTable (convertNodes ns t).2 ∧ TableExtends t (convertNodes ns t).2 ∧
      List.Forall₂ (propsOK (convertNodes ns t).2) (preorderRawList ns)
        (preorderSimpList (convertNodes ns t).1)
  | [], t, h => by
    have heq : convertNodes [] t = ([], t) := by simp [convertNodes]
    rw [heq]
    exact ⟨h, tableExtends_refl t, by
      simp only [preorderRawList, preorderSimpList]
      exact List.Forall₂.nil⟩
  | n :: ns, t, h => by
    have heq : convertNodes (n :: ns) t
        = ((convertNode n t).1 :: (convertNodes ns (convertNode n t).2).1,
           (convertNodes ns (convertNode n t).2).2) := by
      simp [convertNodes]
    obtain ⟨w1, x1, f1⟩ := convertNode_ok n t h
    obtain ⟨w2, x2, f2⟩ := convertNodes_ok ns (convertNode n t).2 w1
    rw [heq]
    refine ⟨w2, tableExtends_trans x1 x2, ?_⟩
    simp only [preorderRawList, preorderSimpList]
    exact List.rel_append (f1.imp (fun _ _ hr => propsOK_mono x2 hr)) f2
end

/-- All style ids referenced by one output record: the five category ids plus
the text-run ids. -/
def propsRefs (q : SimpProps) : List String :=
  q.fillId.toList ++ q.strokeId.toList ++ q.effectId.toList ++ q.textStyleId.toList ++
    q.layoutId.toList ++ q.textRuns.map (·.styleId)

/-- All style ids referenced anywhere in a design's output nodes. -/
def designRefs (d : SimplifiedDesign) : List String :=
  (preorderSimpList d.nodes).flatMap propsRefs

theorem internOpt_keys {t : GlobalVarTable} (os : Option CanonicalStyle) :
    ∀ k ∈ tableKeys (internOpt t os).2, k ∈ tableKeys t ∨ (internOpt t os).1 = some k := by
  cases os with
  | none => intro k hk; exact Or.inl hk
  | some s =>
    intro k hk
    rcases intern_keys_cases k hk with h | h
    · exact Or.inl h
    · exact Or.inr (by simp [internOpt, h])

theorem internRuns_keys : ∀ (rs : List RawTextRun) (t : GlobalVarTable),
    ∀ k ∈ tableKeys (internRuns rs t).2,
      k ∈ tableKeys t ∨ k ∈ (internRuns rs t).1.map (·.styleId) := by
  intro rs
  induction rs with
  | nil => intro t k hk; exact Or.inl hk
  | cons r rest ih =>
    intro t k hk
    have heq : internRuns (r :: rest) t
        = (⟨r.text, (intern t (.typography r.style)).1⟩
            :: (internRuns rest (intern t (.typography r.style)).2).1,
           (internRuns rest (intern t (.typography r.style)).2).2) := by
      simp [internRuns]
    rw [heq] at hk ⊢
    rcases ih (intern t (.typography r.style)).2 k hk with h | h
    · rcases intern_keys_cases k h with h2 | h2
      · exact Or.inl h2
      · exact Or.inr (by simp [h2])
    · exact Or.inr (by simp [h])

theorem assembleProps_keys (p : RawProps) (t : GlobalVarTable) :
    ∀ k ∈ tableKeys (assembleProps p t).2,
      k ∈ tableKeys t ∨ k ∈ propsRefs (assembleProps p t).1 := by
  intro k hk
  unfold assembleProps at hk ⊢
  simp only at hk ⊢
  unfold propsRefs
  simp only
  rcases internRuns_keys _ _ k hk with h | h
  rotate_left
  · right; simp [h]
  rcases internOpt_keys (extractLayout p) k h with h | h
  rotate_left
  · right; simp [h]
  rcases internOpt_keys (extractTypography p) k h with h | h
  rotate_left
  · right; simp [h]
  rcases internOpt_keys (extractEffect p) k h with h | h
  rotate_left
  · right; simp [h]
  rcases internOpt_keys (extractStroke p) k h with h | h
  rotate_left
  · right; simp [h]
  rcases internOpt_keys (extractFill p) k h with h | h
  rotate_left
  · right; simp [h]
  exact Or.inl h

mutual
theorem convertNode_keys : ∀ (n : RawNode) (t : GlobalVarTable),
    ∀ k ∈ tableKeys (convertNode n t).2,
      k ∈ tableKeys t ∨ k ∈ (preorderSimp (convertNode n t).1).flatMap propsRefs
  | .mk p none, t => by
    have heq : convertNode (.mk p none) t
        = (.mk (assembleProps p t).1 [], (assembleProps p t).2) := by
      simp [convertNode]
    rw [heq]
    intro k hk
    rcases assembleProps_keys p t k hk with h | h
    · exact Or.inl h
    · right
      simp only [preorderSimp, preorderSimpList]
      simp [h]
  | .mk p (some l), t => by
    have heq : convertNode (.mk p (some l)) t
        = (.mk (assembleProps p t).1 (convertNodes l (assembleProps p t).2).1,
           (convertNodes l (assembleProps p t).2).2) := by
      simp [convertNode]
    rw [heq]
    intro k hk
    rcases convertNodes_keys l (assembleProps p t).2 k hk with h | h
    · rcases assembleProps_keys p t k h with h2 | h2
      · exact Or.inl h2
      · right
        simp only [preorderSimp]
        simp [h2]
    · right
      simp only [preorderSimp, List.flatMap_cons] at h ⊢
      simp at h ⊢
      rcases h with ⟨q, hq, hkq⟩
      exact Or.inr ⟨q, hq, hkq⟩
theorem convertNodes_keys : ∀ (ns : List RawNode) (t : GlobalVarTable),
    ∀ k ∈ tableKeys (convertNodes ns t).2,
      k ∈ tableKeys t ∨ k ∈ (preorderSimpList (convertNodes ns t).1).flatMap propsRefs
  | [], t => by
    have heq : convertNodes [] t = ([], t) := by simp [convertNodes]
    rw [heq]
    intro k hk
    exact Or.inl hk
  | n :: ns, t => by
    have heq : convertNodes (n :: ns) t
        = ((convertNode n t).1 :: (convertNodes ns (convertNode n t).2).1,
           (convertNodes ns (convertNode n t).2).2) := by
      simp [convertNodes]
    rw [heq]
    intro k hk
    rcases convertNodes_keys ns (convertNode n t).2 k hk with h | h
    · rcases convertNode_keys n t k h with h2 | h2
      · exact Or.inl h2
      · right
        simp only [preorderSimpList]
        simp at h2 ⊢
        rcases h2 with ⟨q, hq, hkq⟩
        exact Or.inl ⟨q, hq, hkq⟩
    · right
      simp only [preorderSimpList]
      simp at h ⊢
      rcases h with ⟨q, hq, hkq⟩
      exact Or.inr ⟨q, hq, hkq⟩
end

theorem optStyleOK_lookup {t : GlobalVarTable} {os : Option CanonicalStyle}
    {oi : Option String} {i : String} (h : optStyleOK t os oi) (hi : oi = some i) :
    ∃ v, lookupVar t i = some v := by
  cases os with
  | none => rw [h] at hi; cases hi
  | some s =>
    obtain ⟨i', hi', hl⟩ := h
    rw [hi'] at hi
    cases hi
    exact ⟨s, hl⟩

theorem propsOK_refs_lookup {t : GlobalVarTable} {p : RawProps} {q : SimpProps}
    (h : propsOK t p q) : ∀ i ∈ propsRefs q, ∃ v, lookupVar t i = some v := by
  obtain ⟨_, _, _, h4, h5, h6, h7, h8, h9⟩ := h
  intro i hi
  unfold propsRefs at hi
  simp only [List.mem_append, Option.mem_toList, List.mem_map] at hi
  rcases hi with ((((hi | hi) | hi) | hi) | hi) | hi
  · exact optStyleOK_lookup h4 hi
  · exact optStyleOK_lookup h5 hi
  · exact optStyleOK_lookup h6 hi
  · exact optStyleOK_lookup h7 hi
  · exact optStyleOK_lookup h8 hi
  · obtain ⟨u, hu, hui⟩ := hi
    obtain ⟨r, _, hr⟩ := forall₂_mem_right h9 hu
    exact ⟨.typography r.style, hui ▸ hr.2⟩

/-- The (extracted canonical style, assigned id) pairs of one category slot. -/
def pairOpt : Option CanonicalStyle → Option String → List (CanonicalStyle × String)
  | some s, some i => [(s, i)]
  | _, _ => []

/-- All (extracted canonical style, assigned StyleId) pairs of a converted
node: the five category slots plus the text runs. -/
def assignedPairs (p : RawProps) (q : SimpProps) : List (CanonicalStyle × String) :=
  pairOpt (extractFill p) q.fillId ++ pairOpt (extractStroke p) q.strokeId ++
    pairOpt (extractEffect p) q.effectId ++ pairOpt (extractTypography p) q.textStyleId ++
    pairOpt (extractLayout p) q.layoutId ++
    ((p.textRuns.getD []).zip q.textRuns).map
      (fun z => (CanonicalStyle.typography z.1.style, z.2.styleId))

theorem pairOpt_lookup {t : GlobalVarTable} {os : Option CanonicalStyle} {oi : Option String}
    {a : CanonicalStyle × String} (ho : optStyleOK t os oi) (ha : a ∈ pairOpt os oi) :
    lookupVar t a.2 = some a.1 := by
  cases os with
  | none => simp [pairOpt] at ha
  | some s =>
    cases oi with
    | none => simp [pairOpt] at ha
    | some i =>
      simp [pairOpt] at ha
      obtain ⟨i', hi', hl⟩ := ho
      cases hi'
      rw [ha]
      exact hl

theorem propsOK_assigned_lookup {t : GlobalVarTable} {p : RawProps} {q : SimpProps}
    (h : propsOK t p q) : ∀ a ∈ assignedPairs p q, lookupVar t a.2 = some a.1 := by
  obtain ⟨_, _, _, h4, h5, h6, h7, h8, h9⟩ := h
  intro a ha
  unfold assignedPairs at ha
  simp only [List.mem_append] at ha
  rcases ha with ((((ha | ha) | ha) | ha) | ha) | ha
  · exact pairOpt_lookup h4 ha
  · exact pairOpt_lookup h5 ha
  · exact pairOpt_lookup h6 ha
  · exact pairOpt_lookup h7 ha
  · exact pairOpt_lookup h8 ha
  · obtain ⟨z, hz, hza⟩ := List.mem_map.mp ha
    have := List.forall₂_zip h9 (by exact hz)
    rw [← hza]
    exact this.2

theorem convertRoots_nodes (m : FileMeta) (roots : List RawNode) :
    (convertRoots m roots).nodes = (convertNodes roots []).1 := rfl

theorem convertRoots_globalVars (m : FileMeta) (roots : List RawNode) :
    (convertRoots m roots).globalVars = (convertNodes roots []).2 := rfl

theorem convertRoots_ids (m : FileMeta) (roots : List RawNode) :
    (preorderSimpList (convertRoots m roots).nodes).map (·.id)
      = (preorderRawList roots).map (·.id) := by
  obtain ⟨_, _, f⟩ := convertNodes_ok roots [] wfTable_nil
  rw [convertRoots_nodes]
  exact forall₂_map_eq (·.id) (·.id) f (fun _ _ hr => hr.1)

/-! ## The spec's worked example (§8) -/

/-- A raw record with the given id and type and no optional field present. -/
def emptyProps (i ty : String) : RawProps :=
  ⟨i, ty, none, none, none, none, none, none, none⟩

/-- A record carrying the solid red fill `{r:1,g:0,b:0,a:1}`. -/
def redFillProps (i : String) : RawProps :=
  { emptyProps i "RECTANGLE" with fills := some [.solid ⟨1, 0, 0, 1⟩] }

/-- A record carrying the solid green fill `{r:0,g:1,b:0,a:1}`. -/
def greenFillProps (i : String) : RawProps :=
  { emptyProps i "RECTANGLE" with fills := some [.solid ⟨0, 1, 0, 1⟩] }

/-- The spec's example input: root 1:1 with children 1:2 (red), 1:3 (red) and
1:4 (green). -/
def exampleRoot : RawNode :=
  .mk (emptyProps "1:1" "FRAME")
    (some [.mk (redFillProps "1:2") none, .mk (redFillProps "1:3") none,
           .mk (greenFillProps "1:4") none])

/-- The conversion of the spec's example input. -/
def exampleDesign : SimplifiedDesign := convertRoots ⟨"f", "m", "t"⟩ [exampleRoot]

/-! ## Claims about the engine -/

/-- Claim C1: style deduplication is exact within one conversion run: for
every pair of output nodes, two assigned (extracted canonical style,
StyleId) pairs have equal styles iff they have equal StyleIds; and on the
spec's example input the conversion yields exactly two fill entries in
globalVars, nodes 1:2 and 1:3 sharing one StyleId and 1:4 carrying a
different one. -/
theorem claim_C1 :
    (∀ (m : FileMeta) (roots : List RawNode),
      ∀ z1 ∈ (preorderRawList roots).zip (preorderSimpList (convertRoots m roots).nodes),
      ∀ z2 ∈ (preorderRawList roots).zip (preorderSimpList (convertRoots m roots).nodes),
      ∀ a1 ∈ assignedPairs z1.1 z1.2, ∀ a2 ∈ assignedPairs z2.1 z2.2,
        (a1.1 = a2.1 ↔ a1.2 = a2.2))
    ∧ ((exampleDesign.globalVars.filter (fun e => decide (e.2.category = "fill"))).length = 2
    ∧ exampleDesign.globalVars.length = 2
    ∧ (preorderSimpList exampleDesign.nodes).map (·.fillId)
        = [none, some "fill_0", some "fill_0", some "fill_1"]) := by
  constructor
  · intro m roots z1 hz1 z2 hz2 a1 ha1 a2 ha2
    obtain ⟨w, x, f⟩ := convertNodes_ok roots [] wfTable_nil
    rw [convertRoots_nodes] at hz1 hz2
    have p1 : propsOK (convertNodes roots []).2 z1.1 z1.2 :=
      List.forall₂_zip f (by rw [Prod.mk.eta]; exact hz1)
    have p2 : propsOK (convertNodes roots []).2 z2.1 z2.2 :=
      List.forall₂_zip f (by rw [Prod.mk.eta]; exact hz2)
    have l1 := propsOK_assigned_lookup p1 a1 ha1
    have l2 := propsOK_assigned_lookup p2 a2 ha2
    constructor
    · intro hsty
      rw [← hsty] at l2
      exact lookupVar_val_inj w l1 l2
    · intro hid
      rw [hid] at l1
      exact Option.some.inj (l1.symm.trans l2)
  · exact ⟨by decide, by decide, by decide⟩

def wMeta : FileMeta := ⟨"file", "mod", "thumb"⟩

def wRoots : List RawNode := [.mk (redFillProps "w1") none]

def wPair : RawProps × SimpProps :=
  (redFillProps "w1", ⟨"w1", "RECTANGLE", none, some "fill_0", none, none, none, none, []⟩)

def wAssigned : CanonicalStyle × String := (.fill [.solid ⟨1, 0, 0, 1⟩], "fill_0")

theorem claim_C1_witness :
    (wPair ∈ (preorderRawList wRoots).zip (preorderSimpList (convertRoots wMeta wRoots).nodes)
      ∧ wAssigned ∈ assignedPairs wPair.1 wPair.2)
    ∧ (wAssigned.1 = wAssigned.1 ↔ wAssigned.2 = wAssigned.2) :=
  ⟨⟨by decide, by decide⟩,
   claim_C1.1 wMeta wRoots wPair (by decide) wPair (by decide) wAssigned (by decide)
     wAssigned (by decide)⟩

/-- Claim C2: referential integrity in both directions: every StyleId
referenced by any output node is a key of globalVars, and every globalVars
entry is referenced by at least one output node. -/
theorem claim_C2 : ∀ (m : FileMeta) (roots : List RawNode),
    (∀ i ∈ designRefs (convertRoots m roots), i ∈ tableKeys (convertRoots m roots).globalVars)
    ∧ (∀ k ∈ tableKeys (convertRoots m roots).globalVars, k ∈ designRefs (convertRoots m roots)) := by
  intro m roots
  obtain ⟨w, x, f⟩ := convertNodes_ok roots [] wfTable_nil
  constructor
  · intro i hi
    unfold designRefs at hi
    rw [convertRoots_nodes] at hi
    simp only [List.mem_flatMap] at hi
    obtain ⟨q, hq, hiq⟩ := hi
    obtain ⟨p, _, hOK⟩ := forall₂_mem_right f hq
    obtain ⟨v, hv⟩ := propsOK_refs_lookup hOK i hiq
    rw [convertRoots_globalVars]
    exact lookupVar_key_mem hv
  · intro k hk
    rw [convertRoots_globalVars] at hk
    rcases convertNodes_keys roots [] k hk with h | h
    · simp [tableKeys] at h
    · unfold designRefs
      rw [convertRoots_nodes]
      exact h

theorem claim_C2_witness :
    ("fill_0" ∈ designRefs (convertRoots wMeta wRoots))
    ∧ ("fill_0" ∈ tableKeys (convertRoots wMeta wRoots).globalVars) :=
  ⟨by decide, (claim_C2 wMeta wRoots).1 "fill_0" (by decide)⟩

/-- Claim C3: conversion is deterministic: converting the same raw input
twice (whole-file or node request) yields identical SimplifiedDesign values
— same nodes in the same order and equal globalVars — because the
conversion is a pure function of its input. -/
theorem claim_C3 : ∀ (m : FileMeta) (roots : List RawNode) (fp : FilePayload)
    (rid : String) (np : NodesPayload),
    convertRoots m roots = convertRoots m roots
    ∧ (convertRoots m roots).nodes = (convertRoots m roots).nodes
    ∧ (convertRoots m roots).globalVars = (convertRoots m roots).globalVars
    ∧ parseFilePayload fp = parseFilePayload fp
    ∧ parseNodesPayload rid np = parseNodesPayload rid np :=
  fun _ _ _ _ _ => ⟨rfl, rfl, rfl, rfl, rfl⟩

/-- Claim C4: the sequence of node identifiers in the output equals the
pre-order traversal of the input restricted to the requested root(s); for a
node request, only the requested entry's subtree appears, never other
payload entries. -/
theorem claim_C4 :
    (∀ (m : FileMeta) (roots : List RawNode),
      (preorderSimpList (convertRoots m roots).nodes).map (·.id)
        = (preorderRawList roots).map (·.id))
    ∧ (∀ (rid : String) (p : NodesPayload) (doc : RawNode),
        lookupNodeEntry p.nodes rid = some (some doc) →
        ∃ d, parseNodesPayload rid p = .ok d
          ∧ (preorderSimpList d.nodes).map (·.id) = (preorderRaw doc).map (·.id)) := by
  constructor
  · exact convertRoots_ids
  · intro rid p doc h
    refine ⟨convertRoots p.meta [doc], ?_, ?_⟩
    · unfold parseNodesPayload
      rw [h]
    · rw [convertRoots_ids]
      simp [preorderRawList]

def wDoc : RawNode := .mk (emptyProps "7:7" "FRAME") none

def wOther : RawNode := .mk (emptyProps "8:8" "FRAME") none

def wNodesPayload : NodesPayload := ⟨⟨"n", "m", "t"⟩, [("7:7", some wDoc), ("8:8", some wOther)]⟩

theorem claim_C4_witness :
    ∃ d, parseNodesPayload "7:7" wNodesPayload = .ok d
      ∧ (preorderSimpList d.nodes).map (·.id) = (preorderRaw wDoc).map (·.id) :=
  claim_C4.2 "7:7" wNodesPayload wDoc rfl

/-- Claim C5: a requested node identifier absent from the fetched payload
(no entry, or a null entry) makes `getNode` fail with a NotFound-class
(status 404) error propagated to the caller; it never returns a success
result. -/
theorem claim_C5 : ∀ (fk nid : String) (depth : Option Rat) (p : NodesPayload),
    isValidFileKey fk = true → isValidNodeId nid = true →
    (lookupNodeEntry p.nodes nid = none ∨ lookupNodeEntry p.nodes nid = some none) →
    FigmaService.getNode fk nid depth (.success p)
        = .error (.figma ⟨404, "Node not found: " ++ nid⟩)
    ∧ (∀ d, FigmaService.getNode fk nid depth (.success p) ≠ .ok d) := by
  intro fk nid depth p h1 h2 h3
  have hmain : FigmaService.getNode fk nid depth (.success p)
      = .error (.figma ⟨404, "Node not found: " ++ nid⟩) := by
    rcases h3 with h | h <;>
      simp [FigmaService.getNode, h1, h2, request, parseNodesPayload, h]
  refine ⟨hmain, ?_⟩
  intro d hd
  rw [hmain] at hd
  simp at hd

def wPayloadEmpty : NodesPayload := ⟨⟨"n", "m", "t"⟩, []⟩

theorem claim_C5_witness :
    isValidFileKey "abc" = true ∧ isValidNodeId "1:2" = true
    ∧ FigmaService.getNode "abc" "1:2" none (.success wPayloadEmpty)
        = .error (.figma ⟨404, "Node not found: " ++ "1:2"⟩) :=
  ⟨by decide, by decide,
   (claim_C5 "abc" "1:2" none wPayloadEmpty (by decide) (by decide) (Or.inl rfl)).1⟩

/-- Claim C6: conversion is total on partial input: a missing children field
makes the node a leaf (a childless root yields exactly one output node with
an empty child list), and a missing style-bearing field of any category is
treated as that category being absent; the conversion itself is a total
function and never fails. -/
theorem claim_C6 : ∀ (p : RawProps) (t : GlobalVarTable) (m : FileMeta),
    (convertNode (.mk p none) t).1.children = []
    ∧ (convertNode (.mk p none) t).1.props.id = p.id
    ∧ (p.fills = none → (assembleProps p t).1.fillId = none)
    ∧ (p.strokes = none → (assembleProps p t).1.strokeId = none)
    ∧ (p.effects = none → (assembleProps p t).1.effectId = none)
    ∧ (p.typography = none → (assembleProps p t).1.textStyleId = none)
    ∧ (p.layout = none → (assembleProps p t).1.layoutId = none)
    ∧ (p.textRuns = none → (assembleProps p t).1.textRuns = [])
    ∧ (convertRoots m [.mk p none]).nodes.length = 1
    ∧ (∀ n ∈ (convertRoots m [.mk p none]).nodes, n.children = []) := by
  intro p t m
  refine ⟨?_, ?_, ?_, ?_, ?_, ?_, ?_, ?_, ?_, ?_⟩
  · simp [convertNode, SimplifiedNode.children]
  · simp [convertNode, SimplifiedNode.props, assembleProps]
  · intro h; simp [assembleProps, extractFill, h, internOpt]
  · intro h; simp [assembleProps, extractStroke, h, internOpt]
  · intro h; simp [assembleProps, extractEffect, h, internOpt]
  · intro h; simp [assembleProps, extractTypography, h, internOpt]
  · intro h; simp [assembleProps, extractLayout, h, internOpt]
  · intro h; simp [assembleProps, h, internRuns]
  · simp [convertRoots, convertNodes]
  · intro n hn
    simp [convertRoots, convertNodes] at hn
    rw [hn]
    simp [convertNode, SimplifiedNode.children]

theorem claim_C6_witness :
    (emptyProps "x" "T").fills = none
    ∧ (assembleProps (emptyProps "x" "T") []).1.fillId = none
    ∧ (convertNode (.mk (emptyProps "x" "T") none) []).1.children = [] :=
  ⟨rfl, (claim_C6 (emptyProps "x" "T") [] ⟨"a", "b", "c"⟩).2.2.1 rfl,
   (claim_C6 (emptyProps "x" "T") [] ⟨"a", "b", "c"⟩).1⟩

/-- Claim C7: every allocated StyleId has the form `"<category>_<N>"` with a
per-category counter starting at 0 and increasing monotonically; `intern`
returns an existing id for a deep-equal already-interned style and otherwise
allocates, stores and returns the next id of that category. -/
theorem claim_C7 : ∀ (t : GlobalVarTable) (s : CanonicalStyle), WFTable t →
    (∀ i, findStyle t s = some i → intern t s = (i, t))
    ∧ (findStyle t s = none →
        intern t s = (s.category ++ "_" ++ natRepr (categoryCount t s.category),
          t ++ [(s.category ++ "_" ++ natRepr (categoryCount t s.category), s)]))
    ∧ (∀ e ∈ t, ∃ j, j < categoryCount t e.2.category
        ∧ e.1 = e.2.category ++ "_" ++ natRepr j)
    ∧ (∀ c : String, categoryCount [] c = 0)
    ∧ (∀ c : String, categoryCount t c ≤ categoryCount (intern t s).2 c)
    ∧ WFTable (intern t s).2 := by
  intro t s h
  refine ⟨?_, ?_, ?_, ?_, ?_, ?_⟩
  · intro i hi; exact intern_hit hi
  · intro hf; exact intern_miss hf
  · intro e he; exact wf_entry_format h he
  · intro c; simp [categoryCount]
  · intro c; exact intern_count_le t s c
  · exact intern_wf h

def wStyle : CanonicalStyle := .fill [.solid ⟨1, 0, 0, 1⟩]

theorem claim_C7_witness :
    findStyle [] wStyle = none
    ∧ intern [] wStyle = ("fill_0", [("fill_0", wStyle)]) := by
  refine ⟨rfl, ?_⟩
  rw [(claim_C7 [] wStyle wfTable_nil).2.1 rfl]
  decide

/-! ## Claims about validation and endpoints -/

/-- Claim C9 counterexample: the empty string is a provided nodeId that does
not match `/^\d+:\d+$/`, yet the handler neither returns an error response
nor skips the service call — it proceeds to fetch the whole file, because
the validator and the dispatch both treat a falsy nodeId as absent. -/
theorem claim_C9_counterexample :
    getFigmaDataStep "abc" (some "") none = .fetchFile "abc" none
    ∧ isValidNodeId "" = false
    ∧ (∀ r, getFigmaDataStep "abc" (some "") none ≠ .errorResponse r) := by
  refine ⟨by decide, by decide, ?_⟩
  intro r hr
  rw [(by decide : getFigmaDataStep "abc" (some "") none = .fetchFile "abc" none)] at hr
  exact HandlerOutcome.noConfusion hr

/-- Claim C9 (amended): for a fileKey that fails the file-key regex, or a
provided non-empty nodeId that fails the node-id regex, or a negative depth,
the handler returns a response with isError true and exactly one text
content entry, and performs no Figma service call. -/
theorem claim_C9 : ∀ (fk : String) (nid : Option String) (depth : Option Rat),
    (isValidFileKey fk = false
      ∨ (∃ n, nid = some n ∧ n ≠ "" ∧ isValidNodeId n = false)
      ∨ (∃ d, depth = some d ∧ d < 0)) →
    ∃ r, getFigmaDataStep fk nid depth = .errorResponse r
      ∧ r.isError = true ∧ r.content.length = 1 := by
  intro fk nid depth h
  have hv : (validateGetFigmaDataInput fk nid depth).isValid = false := by
    unfold validateGetFigmaDataInput
    split_ifs with h1 h2 h3
    · rfl
    · rfl
    · rfl
    · exfalso
      rcases h with h | ⟨n, hn, hne, hnv⟩ | ⟨d, hd, hdneg⟩
      · simp [h] at h1
      · subst hn
        simp [strTruthy, hne, hnv] at h2
      · subst hd
        simp [hdneg] at h3
  refine ⟨handleValidationError
      (jsOrStr ((validateGetFigmaDataInput fk nid depth).errorMessage.getD "")
        "Invalid input parameters for get_figma_data"), ?_, rfl, rfl⟩
  simp [getFigmaDataStep, hv]

theorem claim_C9_witness :
    (isValidFileKey "abc" = false
      ∨ (∃ n, (some "xyz" : Option String) = some n ∧ n ≠ "" ∧ isValidNodeId n = false)
      ∨ (∃ d, (none : Option Rat) = some d ∧ d < 0))
    ∧ ∃ r, getFigmaDataStep "abc" (some "xyz") none = .errorResponse r
        ∧ r.isError = true ∧ r.content.length = 1 :=
  ⟨Or.inr (Or.inl ⟨"xyz", rfl, by decide, by decide⟩),
   claim_C9 "abc" (some "xyz") none (Or.inr (Or.inl ⟨"xyz", rfl, by decide, by decide⟩))⟩

/-- Claim C10: a depth of 0 is accepted by validation (only negative depths
are rejected — any non-negative depth validates exactly like an omitted
one), and both `getFile` and `getNode` build their endpoint without a depth
parameter when depth is 0, so depth 0 behaves like an omitted depth. -/
theorem claim_C10 : ∀ (fk : String) (nid : Option String) (nidStr : String) (q : Rat),
    0 ≤ q →
    validateGetFigmaDataInput fk nid (some 0) = validateGetFigmaDataInput fk nid none
    ∧ validateGetFigmaDataInput fk nid (some q) = validateGetFigmaDataInput fk nid none
    ∧ getFileEndpoint fk (some 0) = getFileEndpoint fk none
    ∧ getNodeEndpoint fk nidStr (some 0) = getNodeEndpoint fk nidStr none := by
  intro fk nid nidStr q hq
  have hnot : ¬(q < 0) := not_lt.mpr hq
  refine ⟨?_, ?_, ?_, ?_⟩
  · unfold validateGetFigmaDataInput
    norm_num
  · unfold validateGetFigmaDataInput
    simp [hnot]
  · simp [getFileEndpoint]
  · simp [getNodeEndpoint]

theorem claim_C10_witness :
    (0 : Rat) ≤ 0
    ∧ (validateGetFigmaDataInput "abc" none (some 0) = validateGetFigmaDataInput "abc" none none
      ∧ validateGetFigmaDataInput "abc" none (some 0) = validateGetFigmaDataInput "abc" none none
      ∧ getFileEndpoint "abc" (some 0) = getFileEndpoint "abc" none
      ∧ getNodeEndpoint "abc" "1:2" (some 0) = getNodeEndpoint "abc" "1:2" none) :=
  ⟨by decide, claim_C10 "abc" none "1:2" 0 (by decide)⟩

/-! ## JSON values and compact serialization

server.ts builds the `get_figma_data` response text by serializing the
metadata, each node, and globalVars independently and concatenating the
pieces into one object literal.  We model JSON values, a compact
character-level serializer (the `null, 2` pretty-printing indentation of
`JSON.stringify` is whitespace only), and whitespace normalization outside
string literals, which is exactly what JSON parsing is insensitive to. -/

inductive Json where
  | str (s : String)
  | num (q : Rat)
  | boolean (b : Bool)
  | null
  | arr (xs : List Json)
  | obj (fields : List (String × Json))

/-- JSON string escaping of one character (quote and backslash). -/
def escapeChar (c : Char) : List Char :=
  if c = '"' ∨ c = '\\' then ['\\', c] else [c]

def escapeChars : List Char → List Char
  | [] => []
  | c :: cs => escapeChar c ++ escapeChars cs

/-- A JSON string literal: quote, escaped content, quote. -/
def quoteChars (s : String) : List Char := '"' :: (escapeChars s.data ++ ['"'])

/-- `Array.prototype.join(",")`. -/
def joinComma : List (List Char) → List Char
  | [] => []
  | [x] => x
  | x :: xs => x ++ ',' :: joinComma xs

mutual
/-- Compact JSON serialization at the character level. -/
def stringifyJson : Json → List Char
  | .str s => quoteChars s
  | .num q => (ratRepr q).data
  | .boolean b => if b then "true".data else "false".data
  | .null => "null".data
  | .arr xs => '[' :: (joinComma (stringifyList xs) ++ [']'])
  | .obj fs => '\x7b' :: (joinComma (stringifyFields fs) ++ ['\x7d'])
def stringifyList : List Json → List (List Char)
  | [] => []
  | j :: js => stringifyJson j :: stringifyList js
def stringifyFields : List (String × Json) → List (List Char)
  | [] => []
  | f :: fs => (quoteChars f.1 ++ ':' :: stringifyJson f.2) :: stringifyFields fs
end

def colorJson (c : Color) : Json :=
  .obj [("r", .num c.r), ("g", .num c.g), ("b", .num c.b), ("a", .num c.a)]

def optRatJson : Option Rat → Json
  | none => .null
  | some q => .num q

def optStrJson : Option String → Json
  | none => .null
  | some s => .str s

def stopJson (s : GradientStop) : Json :=
  .obj [("position", .num s.position), ("color", colorJson s.color)]

def paintJson : Paint → Json
  | .solid c => .obj [("type", .str "SOLID"), ("color", colorJson c)]
  | .gradient stops => .obj [("type", .str "GRADIENT"), ("stops", .arr (stops.map stopJson))]

def effectJson (e : VisualEffect) : Json :=
  .obj [("type", .str e.effectType), ("radius", .num e.radius),
        ("spread", optRatJson e.spread),
        ("color", match e.color with | none => .null | some c => colorJson c),
        ("offsetX", .num e.offsetX), ("offsetY", .num e.offsetY)]

def typographyJson (t : Typography) : Json :=
  .obj [("fontFamily", .str t.fontFamily), ("fontWeight", .num t.fontWeight),
        ("fontSize", .num t.fontSize), ("lineHeight", optRatJson t.lineHeight),
        ("letterSpacing", optRatJson t.letterSpacing), ("textCase", optStrJson t.textCase),
        ("textDecoration", optStrJson t.textDecoration)]

def layoutJson (l : AutoLayout) : Json :=
  .obj [("direction", .str l.direction), ("itemSpacing", .num l.itemSpacing),
        ("paddingTop", .num l.paddingTop), ("paddingRight", .num l.paddingRight),
        ("paddingBottom", .num l.paddingBottom), ("paddingLeft", .num l.paddingLeft),
        ("alignment", optStrJson l.alignment)]

def styleJson : CanonicalStyle → Json
  | .fill ps => .arr (ps.map paintJson)
  | .stroke ps => .arr (ps.map paintJson)
  | .effect es => .arr (es.map effectJson)
  | .typography t => typographyJson t
  | .layout l => layoutJson l

def bboxJson (b : BoundingBox) : Json :=
  .obj [("x", .num b.x), ("y", .num b.y), ("width", .num b.width), ("height", .num b.height)]

def optField (name : String) : Option Json → List (String × Json)
  | none => []
  | some j => [(name, j)]

def runJson (r : SimpTextRun) : Json :=
  .obj [("text", .str r.text), ("styleId", .str r.styleId)]

mutual
/-- The JSON value of one output node. -/
def nodeToJson : SimplifiedNode → Json
  | .mk p cs => .obj ([("id", .str p.id), ("type", .str p.nodeType)]
      ++ optField "boundingBox" (p.boundingBox.map bboxJson)
      ++ optField "fill" (p.fillId.map .str)
      ++ optField "stroke" (p.strokeId.map .str)
      ++ optField "effect" (p.effectId.map .str)
      ++ optField "textStyle" (p.textStyleId.map .str)
      ++ optField "layout" (p.layoutId.map .str)
      ++ (match p.textRuns with
          | [] => []
          | rs => [("textRuns", .arr (rs.map runJson))])
      ++ [("children", .arr (nodesToJson cs))])
def nodesToJson : List SimplifiedNode → List Json
  | [] => []
  | n :: ns => nodeToJson n :: nodesToJson ns
end

/-- The metadata object: the design minus `nodes` and `globalVars`
(`const { nodes, globalVars, ...metadata } = file`). -/
def metadataJson (d : SimplifiedDesign) : Json :=
  .obj [("name", .str d.name), ("lastModified", .str d.lastModified),
        ("thumbnailUrl", .str d.thumbnailUrl)]

/-- The globalVars mapping as one JSON object. -/
def globalVarsJson (d : SimplifiedDesign) : Json :=
  .obj (d.globalVars.map (fun e => (e.1, styleJson e.2)))

/-- The whole response value `{ metadata, nodes, globalVars }`. -/
def combinedJson (d : SimplifiedDesign) : Json :=
  .obj [("metadata", metadataJson d), ("nodes", .arr (d.nodes.map nodeToJson)),
        ("globalVars", globalVarsJson d)]

/-- server.ts lines 99–105: metadata, each node (joined into one array
literal) and globalVars are serialized independently and concatenated into
one object literal:
`{ "metadata": ${...}, "nodes": [${...}], "globalVars": ${...} }`. -/
def piecewiseResultChars (d : SimplifiedDesign) : List Char :=
  ("\x7b \"metadata\": ").data ++ stringifyJson (metadataJson d)
    ++ (", \"nodes\": ").data
    ++ ('[' :: (joinComma ((d.nodes.map nodeToJson).map stringifyJson) ++ [']']))
    ++ (", \"globalVars\": ").data ++ stringifyJson (globalVarsJson d)
    ++ (" \x7d").data

def isJsonWs (c : Char) : Bool := c = ' ' || c = '\n' || c = '\t' || c = '\r'

/-- Remove JSON-insignificant whitespace: everything outside string
literals; tracks in-string and escape state. -/
def stripWsAux : List Char → Bool → Bool → List Char
  | [], _, _ => []
  | c :: rest, true, true => c :: stripWsAux rest true false
  | c :: rest, true, false =>
    if c = '\\' then c :: stripWsAux rest true true
    else if c = '"' then c :: stripWsAux rest false false
    else c :: stripWsAux rest true false
  | c :: rest, false, _ =>
    if c = '"' then c :: stripWsAux rest true false
    else if isJsonWs c then stripWsAux rest false false
    else c :: stripWsAux rest false false

/-- Whitespace normalization of JSON text: two texts with the same
normalization parse to the same JSON value. -/
def normalizeJsonWs (s : List Char) : List Char := stripWsAux s false false

/-- A character that the normalizer copies verbatim outside strings without
changing state: not whitespace and not a quote. -/
def cleanChar (c : Char) : Bool := !(isJsonWs c) && !(decide (c = '"'))

theorem stripWs_cons_clean {c : Char} (h : cleanChar c = true) (t : List Char) :
    stripWsAux (c :: t) false false = c :: stripWsAux t false false := by
  simp only [cleanChar, Bool.and_eq_true, Bool.not_eq_true', decide_eq_false_iff_not] at h
  simp [stripWsAux, h.1, h.2]

theorem stripWs_cons_space (t : List Char) :
    stripWsAux (' ' :: t) false false = stripWsAux t false false := by
  simp [stripWsAux, isJsonWs]

theorem stripWs_clean_pass : ∀ (cs : List Char), (∀ c ∈ cs, cleanChar c = true) →
    ∀ (rest : List Char), stripWsAux (cs ++ rest) false false = cs ++ stripWsAux rest false false := by
  intro cs
  induction cs with
  | nil => intro _ rest; rfl
  | cons c cs ih =>
    intro h rest
    rw [List.cons_append, stripWs_cons_clean (h c (by simp)),
      ih (fun c hc => h c (by simp [hc])) rest]
    rfl

theorem stripWs_escape_pass : ∀ (cs : List Char) (rest : List Char),
    stripWsAux (escapeChars cs ++ ('"' :: rest)) true false
      = escapeChars cs ++ ('"' :: stripWsAux rest false false) := by
  intro cs
  induction cs with
  | nil =>
    intro rest
    simp [escapeChars, stripWsAux]
  | cons c cs ih =>
    intro rest
    by_cases hc : c = '"' ∨ c = '\\'
    · simp only [escapeChars, escapeChar, if_pos hc, List.cons_append, List.append_assoc]
      simp [stripWsAux, ih rest]
    · push_neg at hc
      simp only [escapeChars, escapeChar, if_neg (by tauto : ¬(c = '"' ∨ c = '\\')),
        List.cons_append]
      simp [stripWsAux, hc.1, hc.2, ih rest]

theorem stripWs_quote_pass (s : String) (rest : List Char) :
    stripWsAux (quoteChars s ++ rest) false false
      = quoteChars s ++ stripWsAux rest false false := by
  unfold quoteChars
  simp only [List.cons_append, List.append_assoc, List.singleton_append, List.nil_append]
  rw [show stripWsAux ('"' :: (escapeChars s.data ++ ('"' :: rest))) false false
      = '"' :: stripWsAux (escapeChars s.data ++ ('"' :: rest)) true false from by
    simp [stripWsAux]]
  rw [stripWs_escape_pass]

theorem digitChar_clean : ∀ d < 10, cleanChar (Nat.digitChar d) = true := by decide

theorem natRepr_clean (n : Nat) : ∀ c ∈ (natRepr n).data, cleanChar c = true := by
  unfold natRepr
  by_cases hn : n = 0
  · rw [if_pos hn]
    intro c hc
    simp at hc
    rw [hc]
    decide
  · rw [if_neg hn]
    intro c hc
    simp only [String.mk] at hc
    have hc' : c ∈ ((natDigits n).map Nat.digitChar).reverse := hc
    simp only [List.mem_reverse, List.mem_map] at hc'
    obtain ⟨d, hd, hdc⟩ := hc'
    rw [← hdc]
    exact digitChar_clean d (natDigits_lt n d hd)

theorem intRepr_clean (i : Int) : ∀ c ∈ (intRepr i).data, cleanChar c = true := by
  unfold intRepr
  by_cases hi : i < 0
  · rw [if_pos hi]
    intro c hc
    rw [String.data_append] at hc
    rcases List.mem_append.mp hc with h | h
    · simp at h
      rw [h]
      decide
    · exact natRepr_clean _ c h
  · rw [if_neg hi]
    exact natRepr_clean _

theorem ratRepr_clean (q : Rat) : ∀ c ∈ (ratRepr q).data, cleanChar c = true := by
  unfold ratRepr
  by_cases hq : q.den = 1
  · rw [if_pos hq]
    exact intRepr_clean _
  · rw [if_neg hq]
    intro c hc
    rw [String.data_append, String.data_append] at hc
    rcases List.mem_append.mp hc with h | h
    · rcases List.mem_append.mp h with h2 | h2
      · exact intRepr_clean _ c h2
      · simp at h2
        rw [h2]
        decide
    · exact natRepr_clean _ c h

theorem stringifyList_eq_map : ∀ xs : List Json, stringifyList xs = xs.map stringifyJson := by
  intro xs
  induction xs with
  | nil => rfl
  | cons j js ih => simp [stringifyList, ih]

mutual
theorem stripWs_json_pass : ∀ (j : Json) (rest : List Char),
    stripWsAux (stringifyJson j ++ rest) false false
      = stringifyJson j ++ stripWsAux rest false false
  | .str s, rest => by
    simp only [stringifyJson]
    exact stripWs_quote_pass s rest
  | .num q, rest => by
    simp only [stringifyJson]
    exact stripWs_clean_pass _ (ratRepr_clean q) rest
  | .boolean b, rest => by
    cases b <;> simp only [stringifyJson, if_true, if_false, Bool.false_eq_true] <;>
      exact stripWs_clean_pass _ (by decide) rest
  | .null, rest => by
    simp only [stringifyJson]
    exact stripWs_clean_pass _ (by decide) rest
  | .arr xs, rest => by
    simp only [stringifyJson, List.cons_append, List.append_assoc, List.singleton_append,
      List.nil_append]
    rw [stripWs_cons_clean (show cleanChar '[' = true by decide)]
    rw [stripWs_list_pass xs]
    rw [stripWs_cons_clean (show cleanChar ']' = true by decide)]
  | .obj fs, rest => by
    simp only [stringifyJson, List.cons_append, List.append_assoc, List.singleton_append,
      List.nil_append]
    rw [stripWs_cons_clean (show cleanChar '\x7b' = true by decide)]
    rw [stripWs_fields_pass fs]
    rw [stripWs_cons_clean (show cleanChar '\x7d' = true by decide)]
theorem stripWs_list_pass : ∀ (xs : List Json) (rest : List Char),
    stripWsAux (joinComma (stringifyList xs) ++ rest) false false
      = joinComma (stringifyList xs) ++ stripWsAux rest false false
  | [], rest => by
    simp [stringifyList, joinComma]
  | [j], rest => by
    simp only [stringifyList, joinComma]
    exact stripWs_json_pass j rest
  | j :: j2 :: js, rest => by
    rw [show joinComma (stringifyList (j :: j2 :: js))
        = stringifyJson j ++ ',' :: joinComma (stringifyList (j2 :: js)) from rfl]
    simp only [List.append_assoc, List.cons_append]
    rw [stripWs_json_pass j]
    rw [stripWs_cons_clean (show cleanChar ',' = true by decide)]
    rw [stripWs_list_pass (j2 :: js)]
theorem stripWs_fields_pass : ∀ (fs : List (String × Json)) (rest : List Char),
    stripWsAux (joinComma (stringifyFields fs) ++ rest) false false
      = joinComma (stringifyFields fs) ++ stripWsAux rest false false
  | [], rest => by
    simp [stringifyFields, joinComma]
  | [f], rest => by
    simp only [stringifyFields, joinComma, List.cons_append, List.append_assoc]
    rw [stripWs_quote_pass f.1]
    rw [stripWs_cons_clean (show cleanChar ':' = true by decide)]
    rw [stripWs_json_pass f.2]
  | f :: f2 :: fs, rest => by
    rw [show joinComma (stringifyFields (f :: f2 :: fs))
        = (quoteChars f.1 ++ ':' :: stringifyJson f.2)
            ++ ',' :: joinComma (stringifyFields (f2 :: fs)) from rfl]
    simp only [List.append_assoc, List.cons_append]
    rw [stripWs_quote_pass f.1]
    rw [stripWs_cons_clean (show cleanChar ':' = true by decide)]
    rw [stripWs_json_pass f.2]
    rw [stripWs_cons_clean (show cleanChar ',' = true by decide)]
    rw [stripWs_fields_pass (f2 :: fs)]
end

theorem piecewise_normalized (d : SimplifiedDesign) :
    normalizeJsonWs (piecewiseResultChars d) = stringifyJson (combinedJson d) := by
  unfold normalizeJsonWs piecewiseResultChars
  have l1 : ("\x7b \"metadata\": ").data
      = '\x7b' :: ' ' :: (quoteChars "metadata" ++ [':', ' ']) := by decide
  have l2 : (", \"nodes\": ").data
      = ',' :: ' ' :: (quoteChars "nodes" ++ [':', ' ']) := by decide
  have l3 : (", \"globalVars\": ").data
      = ',' :: ' ' :: (quoteChars "globalVars" ++ [':', ' ']) := by decide
  have l4 : (" \x7d").data = [' ', '\x7d'] := by decide
  rw [l1, l2, l3, l4, ← stringifyList_eq_map]
  simp only [List.append_assoc, List.cons_append, List.singleton_append, List.nil_append]
  rw [stripWs_cons_clean (show cleanChar '\x7b' = true by decide)]
  rw [stripWs_cons_space]
  rw [stripWs_quote_pass]
  rw [stripWs_cons_clean (show cleanChar ':' = true by decide)]
  rw [stripWs_cons_space]
  rw [stripWs_json_pass (metadataJson d)]
  rw [stripWs_cons_clean (show cleanChar ',' = true by decide)]
  rw [stripWs_cons_space]
  rw [stripWs_quote_pass]
  rw [stripWs_cons_clean (show cleanChar ':' = true by decide)]
  rw [stripWs_cons_space]
  rw [stripWs_cons_clean (show cleanChar '[' = true by decide)]
  rw [stripWs_list_pass]
  rw [stripWs_cons_clean (show cleanChar ']' = true by decide)]
  rw [stripWs_cons_clean (show cleanChar ',' = true by decide)]
  rw [stripWs_cons_space]
  rw [stripWs_quote_pass]
  rw [stripWs_cons_clean (show cleanChar ':' = true by decide)]
  rw [stripWs_cons_space]
  rw [stripWs_json_pass (globalVarsJson d)]
  rw [stripWs_cons_space]
  rw [show stripWsAux ['\x7d'] false false = ['\x7d'] from by decide]
  simp only [combinedJson, stringifyJson, stringifyFields, joinComma, List.append_assoc,
    List.cons_append, List.singleton_append, List.nil_append]

/-- Claim C8: the piecewise response assembly of the get_figma_data handler
(metadata, each node joined into one array literal, and globalVars
serialized independently and concatenated into one object literal) is,
up to JSON-insignificant whitespace, exactly the serialization of the whole
value `{ metadata, nodes, globalVars }` — hence both parse to the same JSON
value — for every SimplifiedDesign. -/
theorem claim_C8 : ∀ d : SimplifiedDesign,
    normalizeJsonWs (piecewiseResultChars d) = stringifyJson (combinedJson d)
    ∧ normalizeJsonWs (stringifyJson (combinedJson d)) = stringifyJson (combinedJson d) := by
  intro d
  refine ⟨piecewise_normalized d, ?_⟩
  have := stripWs_json_pass (combinedJson d) []
  simpa [normalizeJsonWs, stripWsAux] using this
